import Mathlib

/-!
Shallow embedding of the chunking and ranking core of the repository
(`content_chunker.py`, `semantic_search.py`).

Modelling conventions:
* Python `str` is modelled as `List Char` (`PyStr`); Python string methods
  (`strip`, `split`, `lower`, f-string concatenation) become explicit
  list operations defined below.
* The external tokenizer capability (tiktoken `cl100k_base`) is abstracted
  as a `Tokenizer` record of `encode`/`decode` maps, exactly the interface
  the chunker uses; `count_tokens` is `len ∘ encode` as in the source.
  `charTok` is a concrete character-level instance used for closed examples.
* The external embedding provider is abstracted as the record
  `SemanticSearcher`: `get_embedding` / `get_embeddings_batch` return the
  value the source's methods return after their internal `try/except`
  ([] on provider failure), and `cosine_similarity` stands for the
  numpy cosine computation, which is floating point (hence not embedded
  numerically) and can raise (e.g. on mismatched vector shapes); it is
  therefore modelled as an arbitrary `Except Unit ℚ`-valued function.
* Dictionaries are modelled as structures; the optional keys
  `embedding` / `search_type` use `[]` / `Option` for the absent state
  (the source only tests `embedding` for truthiness, so a missing key and
  `[]` behave identically). In-place mutation is modelled by explicit
  state passing: the returned list is the post-call state of the input.
-/

abbrev PyStr := List Char

/-- Python `str.strip()`: drop leading and trailing whitespace. -/
def pyStrip (s : PyStr) : PyStr :=
  (s.dropWhile Char.isWhitespace).rdropWhile Char.isWhitespace

/-- Python `str.lower()` (ASCII case folding suffices for the texts involved). -/
def pyLower (s : PyStr) : PyStr := s.map Char.toLower

/-- Python `str.split()` with no separator: whitespace-delimited words, no empties. -/
def pyWords (s : PyStr) : List PyStr :=
  (s.splitOnP fun c => c.isWhitespace).filter (· ≠ [])

/-- Python `str.split('\n')` (single-character separator, empties kept). -/
def splitOnNl : PyStr → List PyStr
  | [] => [[]]
  | c :: rest =>
    if c = '\n' then [] :: splitOnNl rest
    else
      match splitOnNl rest with
      | [] => [[c]]
      | w :: ws => (c :: w) :: ws

/-- Python `str.split('\n\n')`: split at non-overlapping occurrences of a blank line. -/
def splitOnNlNl : PyStr → List PyStr
  | [] => [[]]
  | '\n' :: '\n' :: rest => [] :: splitOnNlNl rest
  | c :: rest =>
    match splitOnNlNl rest with
    | [] => [[c]]
    | w :: ws => (c :: w) :: ws

/-- Python `str(n)` for a natural number. -/
def natStr (n : Nat) : PyStr := (toString n).toList

/-- §6 Tokenizer capability: `encode`/`decode`; the chunker never tokenizes itself. -/
structure Tokenizer where
  encode : PyStr → List Nat
  decode : List Nat → PyStr

/-- `ContentChunker.count_tokens`: `len(self.encoding.encode(text))`. -/
def countTokens (t : Tokenizer) (s : PyStr) : Nat := (t.encode s).length

/-- A concrete character-level tokenizer used for closed instances. -/
def charTok : Tokenizer := ⟨fun s => s.map Char.toNat, fun l => l.map Char.ofNat⟩

/-- `ContentChunker` configuration: tokenizer, `target_chunk_size`, and
`overlap_tokens = int(target_chunk_size * overlap_percentage)`. -/
structure ContentChunker where
  tok : Tokenizer
  target_chunk_size : Nat
  overlap_tokens : Nat

/-- A chunk dictionary as built by the chunker; `embedding` is the optional key
added later by `embed_chunks` (`[]` models both the absent key and an empty
vector, which the source treats identically). -/
structure Chunk where
  id : PyStr := []
  title : PyStr := []
  content : PyStr := []
  token_count : Nat := 0
  type : PyStr := []
  embedding : List ℚ := []
deriving DecidableEq, Repr

/-- A section as produced by `_split_by_headings`. -/
structure Sect where
  title : PyStr
  content : PyStr
  level : Nat
deriving DecidableEq, Repr

/-- Length of the leading run of `#` characters. -/
def headingHashes (line : PyStr) : Nat := (line.takeWhile (· == '#')).length

/-- `re.match(r'^(#{1,6})\s+(.+)$', line)` succeeds: 1–6 leading `#`, then at
least one whitespace character, then at least one further character (lines
contain no newline, so `.` matches any remaining character; with backtracking
the match exists iff the post-`#` remainder has length ≥ 2 and starts with
whitespace). -/
def isHeadingLine (line : PyStr) : Bool :=
  let k := headingHashes line
  let rest := line.drop k
  decide (1 ≤ k) && decide (k ≤ 6) &&
    (match rest with
     | c :: _ :: _ => c.isWhitespace
     | _ => false)

/-- `match.group(2).strip()`: the heading text after the whitespace run
(backtracking leaves the last whitespace character when the remainder is all
whitespace, but `.strip()` erases that difference). -/
def headingText (line : PyStr) : PyStr :=
  pyStrip ((line.drop (headingHashes line)).dropWhile Char.isWhitespace)

/-- One iteration of the line loop of `_split_by_headings`: state is
(sections so far, current_section). -/
def sbhStep (st : List Sect × Sect) (line : PyStr) : List Sect × Sect :=
  if isHeadingLine line then
    let sections := if pyStrip st.2.content ≠ [] then st.1 ++ [st.2] else st.1
    (sections, ⟨headingText line, line ++ ['\n'], headingHashes line⟩)
  else
    (st.1, { st.2 with content := st.2.content ++ line ++ ['\n'] })

/-- `ContentChunker._split_by_headings`. -/
def split_by_headings (markdown : PyStr) : List Sect :=
  let st := (splitOnNl markdown).foldl sbhStep ([], ⟨[], [], 0⟩)
  let sections := if pyStrip st.2.content ≠ [] then st.1 ++ [st.2] else st.1
  if sections = [] then [⟨"Main Content".toList, markdown, 1⟩] else sections

/-- `ContentChunker._split_into_sentences`: `re.split(r'[.!?]+', text)`, strip,
drop empties. Splitting on each delimiter character instead of on maximal runs
differs only in empty fragments, which the filter removes. -/
def split_into_sentences (text : PyStr) : List PyStr :=
  ((text.splitOnP fun c => c == '.' || c == '!' || c == '?').map pyStrip).filter (· ≠ [])

/-- `ContentChunker._get_overlap_text`. -/
def get_overlap_text (c : ContentChunker) (text : PyStr) : PyStr :=
  if text = [] then []
  else
    let tokens := c.tok.encode text
    if tokens.length ≤ c.overlap_tokens then text
    else
      -- Python `tokens[-k:]` is the whole list when k = 0
      let otoks := if c.overlap_tokens = 0 then tokens
                   else tokens.drop (tokens.length - c.overlap_tokens)
      let overlap_text := c.tok.decode otoks
      let sentences := overlap_text.splitOnP (· == '.')
      if 1 < sentences.length then List.intercalate ['.'] sentences.tail
      else overlap_text

/-- Loop state of `_split_by_size`: emitted chunks, `current_chunk`,
`current_tokens`. -/
structure SizeState where
  chunks : List PyStr
  current_chunk : PyStr
  current_tokens : Nat
deriving DecidableEq, Repr

/-- One iteration of the sentence loop inside `_split_by_size` (state:
(chunks, temp_chunk, temp_tokens)). -/
def sentStep (c : ContentChunker) (st : List PyStr × PyStr × Nat) (s : PyStr) :
    List PyStr × PyStr × Nat :=
  let stok := countTokens c.tok s
  if c.target_chunk_size < st.2.2 + stok then
    ((if st.2.1 ≠ [] then st.1 ++ [pyStrip st.2.1] else st.1), s ++ [' '], stok)
  else
    (st.1, st.2.1 ++ s ++ [' '], st.2.2 + stok)

/-- One iteration of the paragraph loop of `_split_by_size`. -/
def splitBySizeStep (c : ContentChunker) (st : SizeState) (p : PyStr) : SizeState :=
  let pt := countTokens c.tok p
  if c.target_chunk_size < pt then
    -- oversized paragraph: flush the buffer, then pack its sentences
    let flushed : SizeState :=
      if st.current_chunk ≠ [] then ⟨st.chunks ++ [pyStrip st.current_chunk], [], 0⟩ else st
    let inner := (split_into_sentences p).foldl (sentStep c) (flushed.chunks, [], 0)
    if inner.2.1 ≠ [] then ⟨inner.1, inner.2.1, inner.2.2⟩
    else ⟨inner.1, flushed.current_chunk, flushed.current_tokens⟩
  else if c.target_chunk_size < st.current_tokens + pt then
    -- close the buffer and seed the next one with the overlap text
    let chunks := if st.current_chunk ≠ [] then st.chunks ++ [pyStrip st.current_chunk] else st.chunks
    let cur := get_overlap_text c st.current_chunk ++ '\n' :: '\n' :: p
    ⟨chunks, cur, countTokens c.tok cur⟩
  else
    let cur := if st.current_chunk ≠ [] then st.current_chunk ++ '\n' :: '\n' :: p else p
    ⟨st.chunks, cur, st.current_tokens + pt⟩

/-- `ContentChunker._split_by_size`. -/
def split_by_size (c : ContentChunker) (text : PyStr) : List PyStr :=
  if pyStrip text = [] then []
  else
    let paragraphs := ((splitOnNlNl text).map pyStrip).filter (· ≠ [])
    let fin := paragraphs.foldl (splitBySizeStep c) ⟨[], [], 0⟩
    if fin.current_chunk ≠ [] then fin.chunks ++ [pyStrip fin.current_chunk] else fin.chunks

/-- The chunk records built by `chunk_by_size` (`enumerate` index `i` from 0). -/
def mkSizeChunks (c : ContentChunker) (ti : PyStr) : Nat → List PyStr → List Chunk
  | _, [] => []
  | i, s :: rest =>
    { id := natStr (i + 1),
      title := if ti ≠ [] then ti ++ " - Chunk ".toList ++ natStr (i + 1)
               else "Chunk ".toList ++ natStr (i + 1),
      content := pyStrip s,
      token_count := countTokens c.tok s,
      type := "size_based".toList } :: mkSizeChunks c ti (i + 1) rest

/-- `ContentChunker.chunk_by_size`. -/
def chunk_by_size (c : ContentChunker) (markdown ti : PyStr) : List Chunk :=
  mkSizeChunks c ti 0 (split_by_size c markdown)

/-- The `size_based` sub-chunk records built in `chunk_by_headings`' else
branch; `cid` is the running `chunk_id`, `i` the `enumerate` index. -/
def mkSubChunks (c : ContentChunker) (sectionTitle : PyStr) :
    Nat → Nat → List PyStr → List Chunk
  | _, _, [] => []
  | cid, i, sub :: rest =>
    { id := natStr cid,
      title := sectionTitle ++ " (Part ".toList ++ natStr (i + 1) ++ ")".toList,
      content := pyStrip sub,
      token_count := countTokens c.tok sub,
      type := "size_based".toList } :: mkSubChunks c sectionTitle (cid + 1) (i + 1) rest

/-- One iteration of the section loop of `chunk_by_headings` (state:
(chunks, chunk_id)). `section.get("title", f"Section N")` is inlined to the
stored title: `_split_by_headings` always sets the `"title"` key (possibly to
the empty string), so the synthesized default can never fire. -/
def cbhStep (c : ContentChunker) (st : List Chunk × Nat) (sect : Sect) : List Chunk × Nat :=
  if countTokens c.tok sect.content ≤ c.target_chunk_size then
    (st.1 ++ [{ id := natStr st.2,
                title := sect.title,
                content := pyStrip sect.content,
                token_count := countTokens c.tok sect.content,
                type := "heading_based".toList }],
     st.2 + 1)
  else
    let subs := split_by_size c sect.content
    (st.1 ++ mkSubChunks c sect.title st.2 0 subs, st.2 + subs.length)

/-- `ContentChunker.chunk_by_headings`. -/
def chunk_by_headings (c : ContentChunker) (markdown ti : PyStr) : List Chunk :=
  let st := (split_by_headings markdown).foldl (cbhStep c) ([], 1)
  if st.1 = [] then chunk_by_size c markdown ti else st.1

/-- The ranker's interface to the outside world (see the header comment):
the two provider calls as the source observes them after its internal
`try/except`, and the floating-point cosine computation. -/
structure SemanticSearcher where
  get_embedding : PyStr → List ℚ
  get_embeddings_batch : List PyStr → List (List ℚ)
  cosine_similarity : List ℚ → List ℚ → Except Unit ℚ

/-- Erasing the transient embedding, as `pop('embedding', None)` does before
a chunk is returned. -/
def eraseEmb (ch : Chunk) : Chunk := { ch with embedding := [] }

/-- A ranked result dictionary: `chunk.copy()` with `embedding` popped
(modelled as `embedding := []`), plus `similarity_score` and the optional
`search_type` key. -/
structure RankedChunk where
  chunk : Chunk
  similarity_score : ℚ
  search_type : Option PyStr := none
deriving DecidableEq, Repr

/-- The texts `f"{title}\n\n{content}".strip()` prepared by `embed_chunks`. -/
def embed_texts (chunks : List Chunk) : List PyStr :=
  chunks.map fun ch => pyStrip (ch.title ++ '\n' :: '\n' :: ch.content)

/-- The index loop of `embed_chunks`: chunk `i` receives `embeddings[i]`, or
`[]` when the batch is shorter. -/
def addEmbeddings (embeddings : List (List ℚ)) : Nat → List Chunk → List Chunk
  | _, [] => []
  | i, ch :: rest =>
    (if i < embeddings.length then { ch with embedding := embeddings.getD i [] }
     else { ch with embedding := [] }) :: addEmbeddings embeddings (i + 1) rest

/-- `SemanticSearcher.embed_chunks`. -/
def embed_chunks (s : SemanticSearcher) (chunks : List Chunk) : List Chunk :=
  addEmbeddings (s.get_embeddings_batch (embed_texts chunks)) 0 chunks

/-- The similarity loop of `find_relevant_chunks`: chunks whose `embedding`
is empty (or absent) are skipped; the cosine computation may raise. -/
def computeSims (s : SemanticSearcher) (qv : List ℚ) :
    List Chunk → Except Unit (List (Chunk × ℚ))
  | [] => .ok []
  | ch :: rest =>
    if ch.embedding = [] then computeSims s qv rest
    else
      match s.cosine_similarity qv ch.embedding with
      | .error e => .error e
      | .ok sc =>
        match computeSims s qv rest with
        | .error e => .error e
        | .ok tl => .ok ((ch, sc) :: tl)

/-- Python `list.sort(key=score, reverse=True)`: a stable descending sort. -/
def sortByScore (score : α → ℚ) (l : List α) : List α :=
  l.insertionSort fun a b => score b ≤ score a

/-- `SemanticSearcher.find_relevant_chunks`; `Except.error` models an
exception escaping the method. -/
def find_relevant_chunks (s : SemanticSearcher) (query : PyStr)
    (chunks : List Chunk) (top_k : Nat) : Except Unit (List RankedChunk) :=
  let query_embedding := s.get_embedding query
  if query_embedding = [] then .ok []
  else
    match computeSims s query_embedding chunks with
    | .error e => .error e
    | .ok sims =>
      .ok (((sortByScore (fun p => p.2) sims).take top_k).map fun p =>
        { chunk := eraseEmb p.1,
          similarity_score := p.2,
          search_type := none })

/-- The keyword score computed inside `_keyword_fallback` for one chunk:
word sets of `query.lower().split()` and `f"{title} {content}".lower().split()`,
`len(common)/len(query_words) if query_words else 0`. -/
def kwScore (query : PyStr) (ch : Chunk) : ℚ :=
  let query_words := (pyWords (pyLower query)).toFinset
  let content_words := (pyWords (pyLower (ch.title ++ [' '] ++ ch.content))).toFinset
  if query_words = ∅ then 0
  else ((query_words ∩ content_words).card : ℚ) / (query_words.card : ℚ)

/-- `SemanticSearcher._keyword_fallback`. -/
def keyword_fallback (query : PyStr) (chunks : List Chunk) (top_k : Nat) :
    List RankedChunk :=
  let scored := chunks.filterMap fun ch =>
    if 0 < kwScore query ch then
      some { chunk := eraseEmb ch,
             similarity_score := kwScore query ch,
             search_type := some ("keyword_fallback".toList) }
    else none
  (sortByScore (fun rc => rc.similarity_score) scored).take top_k

/-- `SemanticSearcher.search_with_fallback`. -/
def search_with_fallback (s : SemanticSearcher) (query : PyStr)
    (chunks : List Chunk) (top_k : Nat) : List RankedChunk :=
  match find_relevant_chunks s query chunks top_k with
  | .ok r => r
  | .error _ => keyword_fallback query chunks top_k

/-- Refinement target for the keyword score, following the spec's words
(§4.2.4): "tokenize query and chunk text (title + content) into lowercase
whitespace-delimited word sets; score = |query_words ∩ chunk_words| /
|query_words| (0 if the query has no words)". -/
def kwScoreSpec (query : PyStr) (ch : Chunk) : ℚ :=
  let qw := (pyWords (pyLower query)).toFinset
  let cw := (pyWords (pyLower (ch.title ++ [' '] ++ ch.content))).toFinset
  if qw.card = 0 then 0 else ((qw ∩ cw).card : ℚ) / (qw.card : ℚ)

/-- The concrete chunker configuration used in closed instances:
character-level tokenizer, `target_chunk_size = 750`,
`overlap_tokens = int(750 * 0.15) = 112` (the constructor defaults). -/
def cW : ContentChunker := ⟨charTok, 750, 112⟩

/-- A small configuration for the overlap analysis: character tokenizer,
`target_chunk_size = 5`, `overlap_tokens = 2`. -/
def c3cfg : ContentChunker := ⟨charTok, 5, 2⟩

/-- A configuration with a larger target, for the paragraph-boundary step. -/
def c3s : ContentChunker := ⟨charTok, 10, 3⟩

/-- A mid-loop `_split_by_size` state: no chunks emitted yet, buffer
`"abcdef"`, six tokens counted. -/
def st3 : SizeState := ⟨[], "abcdef".toList, 6⟩

/-- A chunk whose title/content match the query `"hello"`. -/
def chA : Chunk := { title := "Doc".toList, content := "hello world".toList }

/-- A chunk with no word in common with the query `"hello"`. -/
def chB : Chunk := { content := "nothing here".toList }

/-- A chunk that already carries a (nonempty) embedding. -/
def chC : Chunk := { content := "hi".toList, embedding := [1] }

/-- A provider whose batched call returns one vector — fewer than the chunks
sent — while the query embedding succeeds and cosine always evaluates. -/
def sPartial : SemanticSearcher := ⟨fun _ => [1], fun _ => [[2]], fun _ _ => Except.ok 7⟩

/-- A provider whose embedding calls fail: the source's `try/except` turns
that into empty results. -/
def sEmptyEmb : SemanticSearcher := ⟨fun _ => [], fun _ => [], fun _ _ => Except.ok 0⟩

/-- A provider whose cosine computation raises (e.g. mismatched shapes). -/
def sRaise : SemanticSearcher :=
  ⟨fun _ => [1], fun _ => [[1], [1]], fun _ _ => Except.error ()⟩

/-! ### Basic facts about the Python string operations -/

theorem pyStrip_eq_nil_iff {s : PyStr} :
    pyStrip s = [] ↔ ∀ c ∈ s, c.isWhitespace = true := by
  unfold pyStrip
  rw [List.rdropWhile_eq_nil_iff]
  constructor
  · intro h c hc
    rw [← List.takeWhile_append_dropWhile (p := Char.isWhitespace) (l := s)] at hc
    rcases List.mem_append.mp hc with h1 | h2
    · exact List.mem_takeWhile_imp h1
    · exact h c h2
  · intro h c hc
    exact h c ((List.dropWhile_sublist _).subset hc)

theorem pyStrip_idem (s : PyStr) : pyStrip (pyStrip s) = pyStrip s := by
  unfold pyStrip
  have h1 : ((s.dropWhile Char.isWhitespace).rdropWhile Char.isWhitespace).dropWhile
      Char.isWhitespace = (s.dropWhile Char.isWhitespace).rdropWhile Char.isWhitespace := by
    rw [List.dropWhile_eq_self_iff]
    intro hl
    obtain ⟨t, ht⟩ := List.rdropWhile_prefix Char.isWhitespace (s.dropWhile Char.isWhitespace)
    have hlen : 0 < (s.dropWhile Char.isWhitespace).length := by
      have := congrArg List.length ht
      simp only [List.length_append] at this
      omega
    have hz := List.dropWhile_get_zero_not Char.isWhitespace s hlen
    have hget := List.IsPrefix.get_eq
      (List.rdropWhile_prefix Char.isWhitespace (s.dropWhile Char.isWhitespace)) hl
    rw [hget]
    exact hz
  rw [h1, List.rdropWhile_idempotent]

/-! ### The stable descending sort (`list.sort(key=..., reverse=True)`) -/

theorem sortByScore_sorted (score : α → ℚ) (l : List α) :
    List.Sorted (fun x y => score y ≤ score x) (sortByScore score l) := by
  haveI : IsTotal α (fun x y => score y ≤ score x) := ⟨fun a b => le_total (score b) (score a)⟩
  haveI : IsTrans α (fun x y => score y ≤ score x) :=
    ⟨fun _ _ _ hab hbc => le_trans hbc hab⟩
  exact List.sorted_insertionSort _ l

theorem filter_score_orderedInsert (score : α → ℚ) (q : ℚ) (a : α) (l : List α) :
    ((l.orderedInsert (fun x y => score y ≤ score x) a).filter fun x => decide (score x = q)) =
      (if score a = q then [a] else []) ++ (l.filter fun x => decide (score x = q)) := by
  induction l with
  | nil =>
    by_cases h : score a = q <;> simp [List.orderedInsert, h]
  | cons b t ih =>
    rw [List.orderedInsert]
    by_cases hr : score b ≤ score a
    · rw [if_pos hr]
      by_cases ha : score a = q <;> simp [List.filter_cons, ha]
    · rw [if_neg hr]
      by_cases ha : score a = q
      · have hb : ¬ score b = q := fun hb => hr (le_of_eq (hb.trans ha.symm))
        simp [List.filter_cons, ha, hb, ih]
      · by_cases hb : score b = q <;> simp [List.filter_cons, ha, hb, ih]

theorem filter_score_sortByScore (score : α → ℚ) (q : ℚ) (l : List α) :
    ((sortByScore score l).filter fun x => decide (score x = q)) =
      l.filter fun x => decide (score x = q) := by
  induction l with
  | nil => rfl
  | cons a t ih =>
    show ((List.orderedInsert _ a (sortByScore score t)).filter _) = _
    rw [filter_score_orderedInsert, ih]
    by_cases h : score a = q <;> simp [List.filter_cons, h]

/-- The three ranking facts shared by both scoring paths: the truncated sorted
list has length at most `k`, is sorted by non-increasing score, and its
equal-score fibers appear in input order. -/
theorem ranked_take_props (score : α → ℚ) (l : List α) (k : Nat) :
    ((sortByScore score l).take k).length ≤ k ∧
    List.Sorted (fun x y => score y ≤ score x) ((sortByScore score l).take k) ∧
    ∀ q : ℚ, List.Sublist
      (((sortByScore score l).take k).filter fun x => decide (score x = q))
      (l.filter fun x => decide (score x = q)) := by
  refine ⟨?_, ?_, ?_⟩
  · simp [List.length_take_le]
  · exact List.Pairwise.sublist (List.take_sublist k _) (sortByScore_sorted score l)
  · intro q
    have h1 := (List.take_sublist k (sortByScore score l)).filter
      (fun x => decide (score x = q))
    rwa [filter_score_sortByScore] at h1

/-! ### Facts about line splitting and section building -/

theorem splitOnNl_ne_nil (s : PyStr) : splitOnNl s ≠ [] := by
  induction s with
  | nil => simp [splitOnNl]
  | cons c rest ih =>
    rw [splitOnNl]
    by_cases h : c = '\n'
    · simp [h]
    · rw [if_neg h]
      cases hs : splitOnNl rest <;> simp

/-- Re-joining the lines with a `'\n'` appended to each restores the document
plus one trailing newline (this is exactly how `_split_by_headings`
accumulates `content` when no line is a heading). -/
theorem join_splitOnNl (s : PyStr) :
    ((splitOnNl s).map (· ++ ['\n'])).flatten = s ++ ['\n'] := by
  induction s with
  | nil => simp [splitOnNl]
  | cons c rest ih =>
    rw [splitOnNl]
    by_cases h : c = '\n'
    · simp [h, ih]
    · rw [if_neg h]
      cases hs : splitOnNl rest with
      | nil => exact absurd hs (splitOnNl_ne_nil rest)
      | cons w ws =>
        rw [hs] at ih
        simp only [List.map_cons, List.flatten_cons, List.cons_append] at ih ⊢
        rw [ih]

theorem mem_splitOnNl_subset {s : PyStr} {w : PyStr} (hw : w ∈ splitOnNl s) :
    ∀ c ∈ w, c ∈ s := by
  induction s generalizing w with
  | nil =>
    simp [splitOnNl] at hw
    simp [hw]
  | cons a rest ih =>
    rw [splitOnNl] at hw
    by_cases h : a = '\n'
    · rw [if_pos h] at hw
      rcases List.mem_cons.mp hw with h1 | h2
      · simp [h1]
      · intro c hc
        exact List.mem_cons_of_mem a (ih h2 c hc)
    · rw [if_neg h] at hw
      cases hs : splitOnNl rest with
      | nil => exact absurd hs (splitOnNl_ne_nil rest)
      | cons v vs =>
        rw [hs] at hw
        rcases List.mem_cons.mp hw with h1 | h2
        · subst h1
          intro c hc
          rcases List.mem_cons.mp hc with h3 | h4
          · simp [h3]
          · exact List.mem_cons_of_mem a (ih (hs ▸ List.mem_cons_self v vs) c h4)
        · intro c hc
          exact List.mem_cons_of_mem a (ih (hs ▸ List.mem_cons_of_mem v h2) c hc)

/-- A line consisting solely of whitespace is never a heading line. -/
theorem isHeadingLine_of_ws {line : PyStr} (h : ∀ c ∈ line, c.isWhitespace = true) :
    isHeadingLine line = false := by
  cases line with
  | nil => rfl
  | cons c rest =>
    have hc : c.isWhitespace = true := h c (List.mem_cons_self c rest)
    have hne : (c == '#') = false := by
      cases hcc : c == '#'
      · rfl
      · exfalso
        have : c = '#' := by simpa using hcc
        rw [this] at hc
        simp at hc
    rw [isHeadingLine]
    simp only [headingHashes, List.takeWhile_cons, hne]
    simp

/-- Folding the line loop over heading-free lines leaves the section list
unchanged and appends each line plus `'\n'` to the current content. -/
theorem sbh_fold_no_heading (lines : List PyStr) (secs : List Sect) (cur : Sect)
    (h : ∀ l ∈ lines, isHeadingLine l = false) :
    lines.foldl sbhStep (secs, cur) =
      (secs, { cur with content := cur.content ++ (lines.map (· ++ ['\n'])).flatten }) := by
  induction lines generalizing cur with
  | nil => simp
  | cons l ls ih =>
    have hl : isHeadingLine l = false := h l (List.mem_cons_self l ls)
    have hls : ∀ x ∈ ls, isHeadingLine x = false := fun x hx => h x (List.mem_cons_of_mem l hx)
    rw [List.foldl_cons]
    have hstep : sbhStep (secs, cur) l =
        (secs, { cur with content := cur.content ++ l ++ ['\n'] }) := by
      rw [sbhStep, if_neg (by simp [hl])]
    rw [hstep, ih _ hls]
    simp [List.append_assoc]

/-- On a heading-free document, `_split_by_headings` yields the single
untitled section holding the whole document (with the loop's re-appended
newlines), or the synthesized "Main Content" section when even that content
is pure whitespace. -/
theorem split_by_headings_no_heading (markdown : PyStr)
    (h : ∀ l ∈ splitOnNl markdown, isHeadingLine l = false) :
    split_by_headings markdown =
      if pyStrip (markdown ++ ['\n']) = [] then [⟨"Main Content".toList, markdown, 1⟩]
      else [⟨[], markdown ++ ['\n'], 0⟩] := by
  unfold split_by_headings
  rw [sbh_fold_no_heading _ _ _ h, join_splitOnNl]
  by_cases hws : pyStrip (markdown ++ ['\n']) = [] <;> simp [hws]


/-- C2 (counterexample): on the whitespace-only document `" "`,
`chunk_by_headings` does not return the empty list: the "Main Content"
fallback section survives the size test and is emitted as one
`heading_based` chunk with empty content. -/
theorem C2_whitespace_doc_counterexample :
    (∀ c ∈ (" ".toList : PyStr), c.isWhitespace = true) ∧
    chunk_by_headings cW " ".toList [] =
      [{ id := "1".toList, title := "Main Content".toList, content := [],
         token_count := 1, type := "heading_based".toList }] ∧
    chunk_by_headings cW " ".toList [] ≠ [] := by
  refine ⟨by decide, by decide, by decide⟩

/-- C2 (amended): an empty or whitespace-only document whose token count is
within `target_chunk_size` yields exactly one chunk — id "1", title
"Main Content", empty (trimmed) content, the raw document's token count, and
type `heading_based` — rather than zero chunks; no exception is modelled
because the function is total. -/
theorem C2_whitespace_doc_amended (c : ContentChunker) (doc t : PyStr)
    (hws : ∀ ch ∈ doc, ch.isWhitespace = true)
    (hfit : countTokens c.tok doc ≤ c.target_chunk_size) :
    chunk_by_headings c doc t =
      [{ id := natStr 1, title := "Main Content".toList, content := [],
         token_count := countTokens c.tok doc, type := "heading_based".toList }] := by
  have hnh : ∀ l ∈ splitOnNl doc, isHeadingLine l = false := fun l hl =>
    isHeadingLine_of_ws fun ch hch => hws ch (mem_splitOnNl_subset hl ch hch)
  have hnil : pyStrip (doc ++ ['\n']) = [] := by
    rw [pyStrip_eq_nil_iff]
    intro ch hch
    rcases List.mem_append.mp hch with h1 | h2
    · exact hws ch h1
    · simp at h2
      subst h2
      decide
  unfold chunk_by_headings
  rw [split_by_headings_no_heading doc hnh, if_pos hnil]
  simp [cbhStep, hfit, pyStrip_eq_nil_iff.mpr hws]

/-- C2 (witness): the amended theorem applied to the single-space document
under the default configuration. -/
theorem C2_whitespace_doc_amended_witness :
    chunk_by_headings cW " ".toList [] =
      [{ id := natStr 1, title := "Main Content".toList, content := [],
         token_count := countTokens cW.tok " ".toList,
         type := "heading_based".toList }] :=
  C2_whitespace_doc_amended cW " ".toList [] (by decide) (by decide)

/-- C4 (counterexample): the heading-free document `"hi"` fits the target,
and `chunk_by_headings` returns exactly one chunk — but its origin tag is
`heading_based`, not the claimed size-derived tag. -/
theorem C4_single_chunk_counterexample :
    (∀ l ∈ splitOnNl "hi".toList, isHeadingLine l = false) ∧
    countTokens charTok "hi".toList ≤ cW.target_chunk_size ∧
    chunk_by_headings cW "hi".toList [] =
      [{ id := "1".toList, title := [], content := "hi".toList,
         token_count := 3, type := "heading_based".toList }] ∧
    "heading_based".toList ≠ "size_based".toList := by
  refine ⟨by decide, by decide, by decide, by decide⟩

/-- C4 (amended): a heading-free document that fits `target_chunk_size`
(also with the trailing newline the line loop re-appends) yields exactly one
chunk, and its type is `heading_based` — the untitled whole-document section
passes the size test, so the size-based splitter is never consulted. -/
theorem C4_single_chunk_amended (c : ContentChunker) (doc t : PyStr)
    (hnh : ∀ l ∈ splitOnNl doc, isHeadingLine l = false)
    (h1 : countTokens c.tok doc ≤ c.target_chunk_size)
    (h2 : countTokens c.tok (doc ++ ['\n']) ≤ c.target_chunk_size) :
    (chunk_by_headings c doc t).length = 1 ∧
    ∀ ch ∈ chunk_by_headings c doc t, ch.type = "heading_based".toList := by
  unfold chunk_by_headings
  rw [split_by_headings_no_heading doc hnh]
  by_cases hnil : pyStrip (doc ++ ['\n']) = []
  · rw [if_pos hnil]
    simp [cbhStep, h1]
  · rw [if_neg hnil]
    simp [cbhStep, h2]

/-- C4 (witness): the amended theorem applied to the document `"hi"`. -/
theorem C4_single_chunk_amended_witness :
    (chunk_by_headings cW "hi".toList []).length = 1 ∧
    ∀ ch ∈ chunk_by_headings cW "hi".toList [], ch.type = "heading_based".toList :=
  C4_single_chunk_amended cW "hi".toList [] (by decide) (by decide) (by decide)

/-- C5 (code evaluation at the failing input): for a document with content
before its first heading, the leading chunk is emitted with an *empty* title:
`_split_by_headings` always stores a `"title"` key, so the
`section.get("title", f"Section {chunk_id}")` default is dead code and no
synthesized label ("Main Content" / "Section N") is ever applied. -/
theorem C5_untitled_section_eval :
    chunk_by_headings cW "intro\n# Head\nbody".toList [] =
      [{ id := "1".toList, title := [], content := "intro".toList,
         token_count := 6, type := "heading_based".toList },
       { id := "2".toList, title := "Head".toList,
         content := "# Head\nbody".toList,
         token_count := 12, type := "heading_based".toList }] ∧
    (chunk_by_headings cW "intro\n# Head\nbody".toList []).map Chunk.title =
      [[], "Head".toList] := by
  refine ⟨by decide, by decide⟩

/-! ### Every chunk emitted by the size splitter is already stripped -/

theorem sentStep_fold_stripped (c : ContentChunker) (sentences : List PyStr) :
    ∀ st : List PyStr × PyStr × Nat, (∀ x ∈ st.1, pyStrip x = x) →
      ∀ x ∈ (sentences.foldl (sentStep c) st).1, pyStrip x = x := by
  induction sentences with
  | nil => exact fun st hst => hst
  | cons s rest ih =>
    intro st hst
    rw [List.foldl_cons]
    apply ih
    rw [sentStep]
    by_cases hb : c.target_chunk_size < st.2.2 + countTokens c.tok s
    · rw [if_pos hb]
      by_cases hne : st.2.1 ≠ []
      · simp only [if_pos hne]
        intro x hx
        rcases List.mem_append.mp hx with h1 | h2
        · exact hst x h1
        · simp at h2
          subst h2
          exact pyStrip_idem _
      · simp only [if_neg hne]
        exact hst
    · rw [if_neg hb]
      exact hst

theorem splitBySizeStep_stripped (c : ContentChunker) (st : SizeState) (p : PyStr)
    (hst : ∀ x ∈ st.chunks, pyStrip x = x) :
    ∀ x ∈ (splitBySizeStep c st p).chunks, pyStrip x = x := by
  rw [splitBySizeStep]
  have hflush : ∀ x ∈ (if st.current_chunk ≠ [] then
      st.chunks ++ [pyStrip st.current_chunk] else st.chunks), pyStrip x = x := by
    by_cases hne : st.current_chunk ≠ []
    · simp only [if_pos hne]
      intro x hx
      rcases List.mem_append.mp hx with h1 | h2
      · exact hst x h1
      · simp at h2
        subst h2
        exact pyStrip_idem _
    · simp only [if_neg hne]
      exact hst
  by_cases h1 : c.target_chunk_size < countTokens c.tok p
  · rw [if_pos h1]
    have hinner := sentStep_fold_stripped c (split_into_sentences p)
      ((if st.current_chunk ≠ [] then
          (⟨st.chunks ++ [pyStrip st.current_chunk], [], 0⟩ : SizeState) else st).chunks, [], 0)
      (by
        by_cases hne : st.current_chunk ≠ []
        · simpa only [if_pos hne] using hflush
        · simpa only [if_neg hne] using hflush)
    by_cases h2 : ((split_into_sentences p).foldl (sentStep c)
        ((if st.current_chunk ≠ [] then
          (⟨st.chunks ++ [pyStrip st.current_chunk], [], 0⟩ : SizeState) else st).chunks,
          [], 0)).2.1 ≠ []
    · simp only [if_pos h2]
      exact hinner
    · simp only [if_neg h2]
      exact hinner
  · rw [if_neg h1]
    by_cases h2 : c.target_chunk_size < st.current_tokens + countTokens c.tok p
    · rw [if_pos h2]
      exact hflush
    · rw [if_neg h2]
      exact hst

theorem splitBySize_fold_stripped (c : ContentChunker) (ps : List PyStr) :
    ∀ st : SizeState, (∀ x ∈ st.chunks, pyStrip x = x) →
      ∀ x ∈ (ps.foldl (splitBySizeStep c) st).chunks, pyStrip x = x := by
  induction ps with
  | nil => exact fun st hst => hst
  | cons p rest ih =>
    intro st hst
    rw [List.foldl_cons]
    exact ih _ (splitBySizeStep_stripped c st p hst)

theorem split_by_size_stripped (c : ContentChunker) (text : PyStr) :
    ∀ x ∈ split_by_size c text, pyStrip x = x := by
  rw [split_by_size]
  by_cases h : pyStrip text = []
  · simp [h]
  · rw [if_neg h]
    have hfold := splitBySize_fold_stripped c
      (((splitOnNlNl text).map pyStrip).filter (· ≠ [])) ⟨[], [], 0⟩ (by simp)
    set fin : SizeState :=
      (((splitOnNlNl text).map pyStrip).filter (· ≠ [])).foldl (splitBySizeStep c) ⟨[], [], 0⟩
    by_cases h2 : fin.current_chunk ≠ []
    · simp only [if_pos h2]
      intro x hx
      rcases List.mem_append.mp hx with h3 | h4
      · exact hfold x h3
      · simp at h4
        subst h4
        exact pyStrip_idem _
    · simp only [if_neg h2]
      exact hfold

/-! ### The chunk records' token counts -/

theorem mem_mkSubChunks {c : ContentChunker} {ti : PyStr} :
    ∀ {cid i : Nat} {subs : List PyStr} {ch : Chunk}, ch ∈ mkSubChunks c ti cid i subs →
      ∃ sub ∈ subs, ch.content = pyStrip sub ∧
        ch.token_count = countTokens c.tok sub ∧ ch.type = "size_based".toList := by
  intro cid i subs
  induction subs generalizing cid i with
  | nil => intro ch hch; simp [mkSubChunks] at hch
  | cons sub rest ih =>
    intro ch hch
    rw [mkSubChunks] at hch
    rcases List.mem_cons.mp hch with h1 | h2
    · subst h1
      exact ⟨sub, List.mem_cons_self _ _, rfl, rfl, rfl⟩
    · obtain ⟨s, hs, hrest⟩ := ih h2
      exact ⟨s, List.mem_cons_of_mem _ hs, hrest⟩

theorem mem_mkSizeChunks {c : ContentChunker} {ti : PyStr} :
    ∀ {i : Nat} {ss : List PyStr} {ch : Chunk}, ch ∈ mkSizeChunks c ti i ss →
      ∃ s ∈ ss, ch.content = pyStrip s ∧
        ch.token_count = countTokens c.tok s ∧ ch.type = "size_based".toList := by
  intro i ss
  induction ss generalizing i with
  | nil => intro ch hch; simp [mkSizeChunks] at hch
  | cons s rest ih =>
    intro ch hch
    rw [mkSizeChunks] at hch
    rcases List.mem_cons.mp hch with h1 | h2
    · subst h1
      refine ⟨s, List.mem_cons_self _ _, by simp, rfl, rfl⟩
    · obtain ⟨s', hs', hrest⟩ := ih h2
      exact ⟨s', List.mem_cons_of_mem _ hs', hrest⟩

theorem mem_cbhStep (c : ContentChunker) (st : List Chunk × Nat) (sec : Sect)
    (hst : ∀ ch ∈ st.1,
      (∃ s0, ch.content = pyStrip s0 ∧ ch.token_count = countTokens c.tok s0) ∧
      (ch.type = "size_based".toList → ch.token_count = countTokens c.tok ch.content)) :
    ∀ ch ∈ (cbhStep c st sec).1,
      (∃ s0, ch.content = pyStrip s0 ∧ ch.token_count = countTokens c.tok s0) ∧
      (ch.type = "size_based".toList → ch.token_count = countTokens c.tok ch.content) := by
  rw [cbhStep]
  by_cases hfit : countTokens c.tok sec.content ≤ c.target_chunk_size
  · rw [if_pos hfit]
    intro ch hch
    rcases List.mem_append.mp hch with h1 | h2
    · exact hst ch h1
    · simp only [List.mem_singleton] at h2
      subst h2
      refine ⟨⟨sec.content, rfl, rfl⟩, fun hty => ?_⟩
      simp at hty
  · rw [if_neg hfit]
    intro ch hch
    rcases List.mem_append.mp hch with h1 | h2
    · exact hst ch h1
    · obtain ⟨sub, hsub, hc, htc, _⟩ := mem_mkSubChunks h2
      have hstr : pyStrip sub = sub := split_by_size_stripped c sec.content sub hsub
      refine ⟨⟨sub, hc, htc⟩, fun _ => ?_⟩
      rw [hc, hstr, htc]

theorem mem_cbh_fold (c : ContentChunker) (sections : List Sect) :
    ∀ st : List Chunk × Nat, (∀ ch ∈ st.1,
      (∃ s0, ch.content = pyStrip s0 ∧ ch.token_count = countTokens c.tok s0) ∧
      (ch.type = "size_based".toList → ch.token_count = countTokens c.tok ch.content)) →
    ∀ ch ∈ (sections.foldl (cbhStep c) st).1,
      (∃ s0, ch.content = pyStrip s0 ∧ ch.token_count = countTokens c.tok s0) ∧
      (ch.type = "size_based".toList → ch.token_count = countTokens c.tok ch.content) := by
  induction sections with
  | nil => exact fun st hst => hst
  | cons sec rest ih =>
    intro st hst
    rw [List.foldl_cons]
    exact ih _ (mem_cbhStep c st sec hst)

/-- C6 (amended): each chunk's `token_count` is the tokenizer count of the
*untrimmed* text the chunk was cut from (section text or size-split piece),
while `content` is that text trimmed.  For `size_based` chunks the split
pieces are already stripped, so there `token_count = count_tokens(content)`
holds; for `heading_based` chunks the section text retains its newlines, so
the two counts can differ. -/
theorem C6_token_count_amended (c : ContentChunker) (doc t : PyStr) :
    ∀ ch ∈ chunk_by_headings c doc t,
      (∃ s0, ch.content = pyStrip s0 ∧ ch.token_count = countTokens c.tok s0) ∧
      (ch.type = "size_based".toList → ch.token_count = countTokens c.tok ch.content) := by
  rw [chunk_by_headings]
  by_cases h : ((split_by_headings doc).foldl (cbhStep c) ([], 1)).1 = []
  · simp only [if_pos h]
    intro ch hch
    obtain ⟨s, hs, hc, htc, _⟩ := mem_mkSizeChunks hch
    have hstr : pyStrip s = s := split_by_size_stripped c doc s hs
    refine ⟨⟨s, hc, htc⟩, fun _ => ?_⟩
    rw [hc, hstr, htc]
  · simp only [if_neg h]
    exact mem_cbh_fold c (split_by_headings doc) ([], 1) (by simp)

/-- C6 (witness): the amended theorem applied to a document that produces a
`size_based` chunk (the first "(Part 1)" chunk of an oversized section). -/
theorem C6_token_count_amended_witness :
    (∃ s0, ("aaaa".toList : PyStr) = pyStrip s0 ∧ 4 = countTokens charTok s0) ∧
    ("size_based".toList = "size_based".toList →
      4 = countTokens charTok ("aaaa".toList : PyStr)) := by
  have h := C6_token_count_amended ⟨charTok, 5, 2⟩ "aaaa. bbbb".toList []
    { id := "1".toList, title := " (Part 1)".toList, content := "aaaa".toList,
      token_count := 4, type := "size_based".toList } (by decide)
  exact h

/-- C6 (counterexample): for the heading-free document `"hi"`, the emitted
chunk records `token_count = 3` (the count of the section text `"hi\n"`),
while the tokenizer count of its trimmed `content` is 2. -/
theorem C6_token_count_counterexample :
    chunk_by_headings cW "hi".toList [] =
      [{ id := "1".toList, title := [], content := "hi".toList,
         token_count := 3, type := "heading_based".toList }] ∧
    countTokens charTok "hi".toList = 2 ∧ (3 : Nat) ≠ 2 := by
  refine ⟨by decide, by decide, by decide⟩

/-! ### The overlap text under the character-level tokenizer -/

theorem char_ofNat_toNat (c : Char) : Char.ofNat c.toNat = c := by
  have h : c.toNat.isValidChar := c.valid
  rw [Char.ofNat, dif_pos h]
  apply Char.ext
  apply UInt32.ext
  simp [Char.ofNatAux, Char.toNat, UInt32.toNat]

theorem charTok_decode_encode_drop (s : PyStr) (n : Nat) :
    charTok.decode ((charTok.encode s).drop n) = s.drop n := by
  show ((s.map Char.toNat).drop n).map Char.ofNat = s.drop n
  rw [← List.map_drop, List.map_map]
  have : Char.ofNat ∘ Char.toNat = id := funext fun c => char_ofNat_toNat c
  rw [this, List.map_id]

/-- Under the character tokenizer, when `0 < overlap_tokens < |text|` and the
final `overlap_tokens` characters contain no `'.'`, `_get_overlap_text`
returns exactly that character suffix. -/
theorem get_overlap_text_charTok (c : ContentChunker) (text : PyStr)
    (htok : c.tok = charTok)
    (hk0 : 0 < c.overlap_tokens)
    (hklt : c.overlap_tokens < text.length)
    (hnodot : '.' ∉ text.drop (text.length - c.overlap_tokens)) :
    get_overlap_text c text = text.drop (text.length - c.overlap_tokens) := by
  have hne : text ≠ [] := by
    intro h
    rw [h] at hklt
    simp at hklt
  have hlen : (charTok.encode text).length = text.length := by
    show (text.map Char.toNat).length = text.length
    simp
  have h1 : ¬ ((charTok.encode text).length ≤ c.overlap_tokens) := by
    rw [hlen]
    omega
  have h2 : ¬ (c.overlap_tokens = 0) := by omega
  have hsingle : (text.drop (text.length - c.overlap_tokens)).splitOnP (· == '.') =
      [text.drop (text.length - c.overlap_tokens)] := by
    apply List.splitOnP_eq_single
    intro x hx
    simp only [beq_iff_eq]
    intro hxe
    exact hnodot (hxe ▸ hx)
  rw [get_overlap_text, if_neg hne, htok, if_neg h1, if_neg h2]
  simp only [hlen, charTok_decode_encode_drop, hsingle]
  simp

/-- C3 (amended): consecutive size-derived chunks need not overlap — the
sentence-level split of an oversized paragraph seeds no overlap at all
(counterexample), and the `'.'`-trim can empty the seed.  What does hold: at
a paragraph-accumulation boundary the closed chunk is the stripped buffer and
the next buffer starts with `_get_overlap_text(buffer)` followed by a blank
line and the new paragraph; under the character tokenizer, when
`0 < overlap_tokens <` the buffer's token count, the buffer is stripped, and
the decoded tail holds no `'.'`, that seed is a nonempty suffix of the closed
chunk and a prefix of the next buffer. -/
theorem C3_overlap_amended (c : ContentChunker) (st : SizeState) (p : PyStr)
    (htok : c.tok = charTok)
    (hcur : st.current_chunk ≠ [])
    (hstrip : pyStrip st.current_chunk = st.current_chunk)
    (hpt : countTokens c.tok p ≤ c.target_chunk_size)
    (hover : c.target_chunk_size < st.current_tokens + countTokens c.tok p)
    (hk0 : 0 < c.overlap_tokens)
    (hklt : c.overlap_tokens < st.current_chunk.length)
    (hnodot : '.' ∉ st.current_chunk.drop (st.current_chunk.length - c.overlap_tokens)) :
    ∃ w : PyStr,
      (splitBySizeStep c st p).chunks = st.chunks ++ [pyStrip st.current_chunk] ∧
      (splitBySizeStep c st p).current_chunk = w ++ '\n' :: '\n' :: p ∧
      w = get_overlap_text c st.current_chunk ∧
      w ≠ [] ∧
      w <:+ pyStrip st.current_chunk ∧
      w <+: (splitBySizeStep c st p).current_chunk := by
  have hov : get_overlap_text c st.current_chunk =
      st.current_chunk.drop (st.current_chunk.length - c.overlap_tokens) :=
    get_overlap_text_charTok c st.current_chunk htok hk0 hklt hnodot
  have hstep : splitBySizeStep c st p =
      ⟨st.chunks ++ [pyStrip st.current_chunk],
       get_overlap_text c st.current_chunk ++ '\n' :: '\n' :: p,
       countTokens c.tok (get_overlap_text c st.current_chunk ++ '\n' :: '\n' :: p)⟩ := by
    rw [splitBySizeStep]
    rw [if_neg (by omega), if_pos hover, if_pos hcur]
  refine ⟨get_overlap_text c st.current_chunk, ?_, ?_, rfl, ?_, ?_, ?_⟩
  · rw [hstep]
  · rw [hstep]
  · rw [hov]
    have : (st.current_chunk.drop (st.current_chunk.length - c.overlap_tokens)).length =
        c.overlap_tokens := by
      rw [List.length_drop]
      omega
    intro hnil
    rw [hnil] at this
    simp at this
    omega
  · rw [hov, hstrip]
    exact List.drop_suffix _ _
  · rw [hstep]
    exact List.prefix_append _ _

/-- C3 (witness): the amended theorem applied at a concrete boundary step:
buffer `"abcdef"` (six tokens), paragraph `"ppppp"`, target 10, overlap 3. -/
theorem C3_overlap_amended_witness :
    ∃ w : PyStr,
      (splitBySizeStep c3s st3 "ppppp".toList).chunks =
        st3.chunks ++ [pyStrip st3.current_chunk] ∧
      (splitBySizeStep c3s st3 "ppppp".toList).current_chunk =
        w ++ '\n' :: '\n' :: "ppppp".toList ∧
      w = get_overlap_text c3s st3.current_chunk ∧
      w ≠ [] ∧
      w <:+ pyStrip st3.current_chunk ∧
      w <+: (splitBySizeStep c3s st3 "ppppp".toList).current_chunk :=
  C3_overlap_amended c3s st3 "ppppp".toList rfl (by decide) (by decide) (by decide)
    (by decide) (by decide) (by decide) (by decide)

/-- C3 (counterexample): in `chunk_by_headings` with target 5 and
`overlap_tokens = 2`, the document `"aaaa. bbbb"` is split through the
oversized-paragraph sentence path into the consecutive size-derived chunks
`"aaaa"` and `"bbbb"` from the same section; the first chunk's token count
exceeds the positive overlap, yet the two chunks share no nonempty substring
at all (in particular no suffix/prefix overlap). -/
theorem C3_overlap_counterexample :
    chunk_by_headings c3cfg "aaaa. bbbb".toList [] =
      [{ id := "1".toList, title := " (Part 1)".toList, content := "aaaa".toList,
         token_count := 4, type := "size_based".toList },
       { id := "2".toList, title := " (Part 2)".toList, content := "bbbb".toList,
         token_count := 4, type := "size_based".toList }] ∧
    0 < c3cfg.overlap_tokens ∧ c3cfg.overlap_tokens < 4 ∧
    ¬ ∃ w : PyStr, w ≠ [] ∧ w <:+: ("aaaa".toList : PyStr) ∧
      w <:+: ("bbbb".toList : PyStr) := by
  refine ⟨by decide, by decide, by decide, ?_⟩
  rintro ⟨w, hne, h1, h2⟩
  cases w with
  | nil => exact hne rfl
  | cons x xs =>
    have hxa : x ∈ ("aaaa".toList : PyStr) :=
      h1.sublist.subset (List.mem_cons_self x xs)
    have hxb : x ∈ ("bbbb".toList : PyStr) :=
      h2.sublist.subset (List.mem_cons_self x xs)
    have ha : x = 'a' := by
      simpa using hxa
    have hb : x = 'b' := by
      simpa using hxb
    rw [ha] at hb
    exact absurd hb (by decide)

/-! ### The ranking paths -/

theorem computeSims_ok_fst (s : SemanticSearcher) (qv : List ℚ) :
    ∀ (l : List Chunk) (sims : List (Chunk × ℚ)),
      computeSims s qv l = Except.ok sims → List.Sublist (sims.map Prod.fst) l := by
  intro l
  induction l with
  | nil =>
    intro sims h
    rw [computeSims] at h
    injection h with h
    subst h
    simp
  | cons ch rest ih =>
    intro sims h
    rw [computeSims] at h
    by_cases hemb : ch.embedding = []
    · rw [if_pos hemb] at h
      exact (ih sims h).cons ch
    · rw [if_neg hemb] at h
      cases hsim : s.cosine_similarity qv ch.embedding with
      | error e => rw [hsim] at h; cases h
      | ok sc =>
        rw [hsim] at h
        cases hrec : computeSims s qv rest with
        | error e => rw [hrec] at h; cases h
        | ok tl =>
          rw [hrec] at h
          injection h with h
          subst h
          exact (ih tl hrec).cons₂ ch

theorem computeSims_ok_of (s : SemanticSearcher) (qv : List ℚ) :
    ∀ l : List Chunk, (∀ ch ∈ l, ch.embedding ≠ [] →
        ∃ sc, s.cosine_similarity qv ch.embedding = Except.ok sc) →
      ∃ sims, computeSims s qv l = Except.ok sims ∧
        sims.map Prod.fst = l.filter fun ch => !decide (ch.embedding = []) := by
  intro l
  induction l with
  | nil => exact fun _ => ⟨[], rfl, rfl⟩
  | cons ch rest ih =>
    intro h
    obtain ⟨sims, hs, hf⟩ := ih fun x hx => h x (List.mem_cons_of_mem ch hx)
    by_cases hemb : ch.embedding = []
    · refine ⟨sims, ?_, ?_⟩
      · rw [computeSims, if_pos hemb]
        exact hs
      · rw [List.filter_cons]
        simp [hemb, hf]
    · obtain ⟨sc, hsc⟩ := h ch (List.mem_cons_self _ _) hemb
      refine ⟨(ch, sc) :: sims, ?_, ?_⟩
      · rw [computeSims, if_neg hemb, hsc, hs]
      · rw [List.filter_cons]
        simp [hemb, hf]

/-- The shape lemma for a successful `find_relevant_chunks`: such a result is
at most `k` long, sorted by non-increasing score, and its equal-score fibers
appear in input order. -/
theorem find_ok_props (s : SemanticSearcher) (query : PyStr) (chunks : List Chunk)
    (k : Nat) (res : List RankedChunk)
    (h : find_relevant_chunks s query chunks k = Except.ok res) :
    res.length ≤ k ∧
    List.Sorted (fun x y : RankedChunk => y.similarity_score ≤ x.similarity_score) res ∧
    ∀ q : ℚ, List.Sublist
      ((res.filter fun rc => decide (rc.similarity_score = q)).map RankedChunk.chunk)
      (chunks.map eraseEmb) := by
  rw [find_relevant_chunks] at h
  by_cases hq : s.get_embedding query = []
  · rw [if_pos hq] at h
    injection h with h
    subst h
    exact ⟨by simp, by simp, fun q => by simp⟩
  · rw [if_neg hq] at h
    cases hcs : computeSims s (s.get_embedding query) chunks with
    | error e => rw [hcs] at h; cases h
    | ok sims =>
      rw [hcs] at h
      injection h with h
      subst h
      obtain ⟨hlen, hsort, hstab⟩ := ranked_take_props (fun p : Chunk × ℚ => p.2) sims k
      refine ⟨by rw [List.length_map]; exact hlen, ?_, ?_⟩
      · exact List.Pairwise.map _ (fun a b hab => hab) hsort
      · intro q
        rw [List.filter_map, List.map_map]
        have h2 : List.Sublist
            ((sims.filter fun x : Chunk × ℚ => decide (x.2 = q)).map
              fun p : Chunk × ℚ => eraseEmb p.1)
            (sims.map fun p : Chunk × ℚ => eraseEmb p.1) :=
          (List.filter_sublist sims).map _
        have h3 : List.Sublist (sims.map fun p : Chunk × ℚ => eraseEmb p.1)
            (chunks.map eraseEmb) := by
          have h4 := (computeSims_ok_fst s (s.get_embedding query) chunks sims hcs).map eraseEmb
          rw [List.map_map] at h4
          exact h4
        exact ((hstab q).map (fun p : Chunk × ℚ => eraseEmb p.1)).trans (h2.trans h3)

theorem filterMap_kw_chunk_sublist (query : PyStr) :
    ∀ chunks : List Chunk, List.Sublist
      ((chunks.filterMap fun ch =>
        if 0 < kwScore query ch then
          some { chunk := eraseEmb ch,
                 similarity_score := kwScore query ch,
                 search_type := some ("keyword_fallback".toList) }
        else (none : Option RankedChunk)).map RankedChunk.chunk)
      (chunks.map eraseEmb) := by
  intro chunks
  induction chunks with
  | nil => simp
  | cons ch rest ih =>
    rw [List.filterMap_cons]
    by_cases h : 0 < kwScore query ch
    · rw [if_pos h]
      simp only [List.map_cons]
      exact ih.cons₂ (eraseEmb ch)
    · rw [if_neg h]
      simp only [List.map_cons]
      exact ih.cons (eraseEmb ch)

theorem keyword_fallback_props (query : PyStr) (chunks : List Chunk) (k : Nat) :
    (keyword_fallback query chunks k).length ≤ k ∧
    List.Sorted (fun x y : RankedChunk => y.similarity_score ≤ x.similarity_score)
      (keyword_fallback query chunks k) ∧
    ∀ q : ℚ, List.Sublist
      (((keyword_fallback query chunks k).filter
        fun rc => decide (rc.similarity_score = q)).map RankedChunk.chunk)
      (chunks.map eraseEmb) := by
  obtain ⟨hlen, hsort, hstab⟩ := ranked_take_props
    (fun rc : RankedChunk => rc.similarity_score)
    (chunks.filterMap fun ch =>
      if 0 < kwScore query ch then
        some { chunk := eraseEmb ch,
               similarity_score := kwScore query ch,
               search_type := some ("keyword_fallback".toList) }
      else (none : Option RankedChunk)) k
  refine ⟨hlen, hsort, ?_⟩
  intro q
  exact ((hstab q).map RankedChunk.chunk).trans
    (((List.filter_sublist _).map RankedChunk.chunk).trans
      (filterMap_kw_chunk_sublist query chunks))

/-- C8: `search_with_fallback` (the Ranker's `rank`) returns at most `k`
items, sorted by non-increasing `similarity_score`, and — in both the
embedding path and the keyword path — chunks with equal scores keep their
input order (every equal-score fiber of the result is a sublist of the
input sequence). -/
theorem C8_rank_sorted_stable (s : SemanticSearcher) (query : PyStr)
    (chunks : List Chunk) (k : Nat) :
    (search_with_fallback s query chunks k).length ≤ k ∧
    List.Sorted (fun x y : RankedChunk => y.similarity_score ≤ x.similarity_score)
      (search_with_fallback s query chunks k) ∧
    ∀ q : ℚ, List.Sublist
      (((search_with_fallback s query chunks k).filter
        fun rc => decide (rc.similarity_score = q)).map RankedChunk.chunk)
      (chunks.map eraseEmb) := by
  cases hf : find_relevant_chunks s query chunks k with
  | ok r =>
    have hs : search_with_fallback s query chunks k = r := by
      rw [search_with_fallback, hf]
    rw [hs]
    exact find_ok_props s query chunks k r hf
  | error e =>
    have hs : search_with_fallback s query chunks k = keyword_fallback query chunks k := by
      rw [search_with_fallback, hf]
    rw [hs]
    exact keyword_fallback_props query chunks k

/-- The code's inline keyword score agrees with the spec's formula. -/
theorem kwScoreSpec_eq (query : PyStr) (ch : Chunk) :
    kwScoreSpec query ch = kwScore query ch := by
  rw [kwScoreSpec, kwScore]
  simp only [Finset.card_eq_zero]

/-- C9: the keyword fallback returns only chunks with a strictly positive
score, every returned score is exactly the spec's
`|query_words ∩ chunk_words| / |query_words|` of the originating chunk, and a
query with no words yields the empty result (every chunk scores 0 and
zero-score chunks are excluded). -/
theorem C9_keyword_score (query : PyStr) (chunks : List Chunk) (k : Nat) :
    (∀ rc ∈ keyword_fallback query chunks k,
      0 < rc.similarity_score ∧
      ∃ ch ∈ chunks, rc.chunk = eraseEmb ch ∧
        rc.similarity_score = kwScoreSpec query ch) ∧
    (pyWords (pyLower query) = [] → keyword_fallback query chunks k = []) := by
  constructor
  · intro rc hrc
    have h1 : rc ∈ sortByScore (fun rc : RankedChunk => rc.similarity_score)
        (chunks.filterMap fun ch =>
          if 0 < kwScore query ch then
            some { chunk := eraseEmb ch,
                   similarity_score := kwScore query ch,
                   search_type := some ("keyword_fallback".toList) }
          else (none : Option RankedChunk)) := List.mem_of_mem_take hrc
    rw [sortByScore, List.mem_insertionSort] at h1
    obtain ⟨ch, hch, hF⟩ := List.mem_filterMap.mp h1
    by_cases hpos : 0 < kwScore query ch
    · rw [if_pos hpos] at hF
      injection hF with hF
      subst hF
      exact ⟨hpos, ch, hch, rfl, (kwScoreSpec_eq query ch).symm⟩
    · rw [if_neg hpos] at hF
      cases hF
  · intro hq
    have hzero : ∀ ch : Chunk, kwScore query ch = 0 := by
      intro ch
      rw [kwScore]
      simp [hq]
    have hnil : (chunks.filterMap fun ch =>
        if 0 < kwScore query ch then
          some { chunk := eraseEmb ch,
                 similarity_score := kwScore query ch,
                 search_type := some ("keyword_fallback".toList) }
        else (none : Option RankedChunk)) = [] := by
      rw [List.filterMap_eq_nil]
      intro ch _
      rw [if_neg (by rw [hzero ch]; exact lt_irrefl 0)]
    show ((sortByScore _ _).take k) = []
    rw [hnil]
    simp [sortByScore]

/-- C9 (witness): the theorem applied to the query `"hello"` and the chunks
`[chA, chB]`: the single returned chunk is `chA` with score 1, and the
wordless query returns nothing. -/
theorem C9_keyword_score_witness :
    (∀ rc ∈ keyword_fallback "hello".toList [chA, chB] 3,
      0 < rc.similarity_score ∧
      ∃ ch ∈ ([chA, chB] : List Chunk), rc.chunk = eraseEmb ch ∧
        rc.similarity_score = kwScoreSpec "hello".toList ch) ∧
    keyword_fallback " ".toList [chA, chB] 3 = [] :=
  ⟨(C9_keyword_score "hello".toList [chA, chB] 3).1,
   (C9_keyword_score " ".toList [chA, chB] 3).2 (by decide)⟩

/-- C7 (amended): the fallback fires only when `find_relevant_chunks` raises;
when the query-embedding call fails (the provider error is caught and an
empty vector returned), `rank` returns the *empty list* — not the keyword
fallback.  In either case no exception reaches the caller
(`search_with_fallback` is total). -/
theorem C7_fallback_amended (s : SemanticSearcher) (query : PyStr)
    (chunks : List Chunk) (k : Nat) :
    (s.get_embedding query = [] →
      search_with_fallback s query chunks k = [] ∧
      find_relevant_chunks s query chunks k = Except.ok []) ∧
    (∀ e, find_relevant_chunks s query chunks k = Except.error e →
      search_with_fallback s query chunks k = keyword_fallback query chunks k) := by
  constructor
  · intro hq
    have hfind : find_relevant_chunks s query chunks k = Except.ok [] := by
      rw [find_relevant_chunks, if_pos hq]
    exact ⟨by rw [search_with_fallback, hfind], hfind⟩
  · intro e he
    rw [search_with_fallback, he]

/-- C7 (witness): with a cosine computation that raises on an embedded chunk,
the fallback result is returned. -/
theorem C7_fallback_amended_witness :
    search_with_fallback sRaise "hi".toList [chC] 2 =
      keyword_fallback "hi".toList [chC] 2 :=
  (C7_fallback_amended sRaise "hi".toList [chC] 2).2 () rfl

/-- C7 (counterexample): when the embedding provider fails (empty query
embedding), `search_with_fallback` returns `[]` even though the keyword
fallback would have returned a match — the "returns empty" case does *not*
degrade to the keyword method. -/
theorem C7_fallback_counterexample :
    search_with_fallback sEmptyEmb "hello".toList [chA] 3 = [] ∧
    keyword_fallback "hello".toList [chA] 3 =
      [{ chunk := chA, similarity_score := 1,
         search_type := some ("keyword_fallback".toList) }] ∧
    search_with_fallback sEmptyEmb "hello".toList [chA] 3 ≠
      keyword_fallback "hello".toList [chA] 3 := by
  refine ⟨by decide, by with_unfolding_all decide, by with_unfolding_all decide⟩

/-! ### `embed_chunks` and the partial-batch behavior -/

theorem addEmbeddings_length (embs : List (List ℚ)) :
    ∀ (l : List Chunk) (i : Nat), (addEmbeddings embs i l).length = l.length := by
  intro l
  induction l with
  | nil => intro i; rfl
  | cons ch rest ih =>
    intro i
    rw [addEmbeddings]
    simp [ih]

theorem map_eraseEmb_addEmbeddings (embs : List (List ℚ)) :
    ∀ (l : List Chunk) (i : Nat),
      (addEmbeddings embs i l).map eraseEmb = l.map eraseEmb := by
  intro l
  induction l with
  | nil => intro i; rfl
  | cons ch rest ih =>
    intro i
    rw [addEmbeddings]
    by_cases h : i < embs.length <;> simp [h, ih, eraseEmb]

theorem addEmbeddings_getD (embs : List (List ℚ)) :
    ∀ (l : List Chunk) (i j : Nat), j < l.length →
      (addEmbeddings embs i l).getD j {} =
        (if i + j < embs.length
         then { l.getD j {} with embedding := embs.getD (i + j) [] }
         else { l.getD j {} with embedding := [] }) := by
  intro l
  induction l with
  | nil => intro i j hj; simp at hj
  | cons ch rest ih =>
    intro i j hj
    cases j with
    | zero =>
      rw [addEmbeddings]
      simp
    | succ j' =>
      rw [addEmbeddings]
      simp only [List.getD_cons_succ]
      have harith : i + 1 + j' = i + (j' + 1) := by omega
      rw [ih (i + 1) j' (by simp at hj; omega), harith]

theorem addEmbeddings_embedding_mem (embs : List (List ℚ)) :
    ∀ (l : List Chunk) (i : Nat) (ch : Chunk), ch ∈ addEmbeddings embs i l →
      ch.embedding = [] ∨ ch.embedding ∈ embs := by
  intro l
  induction l with
  | nil => intro i ch h; simp [addEmbeddings] at h
  | cons c0 rest ih =>
    intro i ch h
    rw [addEmbeddings] at h
    rcases List.mem_cons.mp h with h1 | h2
    · by_cases hi : i < embs.length
      · rw [if_pos hi] at h1
        subst h1
        right
        show embs.getD i [] ∈ embs
        rw [List.getD_eq_getElem _ _ hi]
        exact List.getElem_mem hi
      · rw [if_neg hi] at h1
        subst h1
        left
        rfl
    · exact ih (i + 1) ch h2

theorem addEmbeddings_filter_take (embs : List (List ℚ))
    (hnz : ∀ v ∈ embs, v ≠ []) :
    ∀ (l : List Chunk) (i : Nat),
      (addEmbeddings embs i l).filter (fun ch => !decide (ch.embedding = [])) =
        (addEmbeddings embs i l).take (embs.length - i) := by
  intro l
  induction l with
  | nil => intro i; simp [addEmbeddings]
  | cons c0 rest ih =>
    intro i
    rw [addEmbeddings]
    by_cases hi : i < embs.length
    · rw [if_pos hi]
      have hne : embs.getD i [] ≠ [] := by
        apply hnz
        rw [List.getD_eq_getElem _ _ hi]
        exact List.getElem_mem hi
      have harith : embs.length - i = (embs.length - (i + 1)) + 1 := by omega
      rw [List.filter_cons, harith, List.take_succ_cons]
      simp [ih]
      simpa [List.getD] using hne
    · rw [if_neg hi]
      have h0 : embs.length - i = 0 := by omega
      have h1 : embs.length - (i + 1) = 0 := by omega
      rw [List.filter_cons, h0, List.take_zero]
      simpa [h1] using ih (i + 1)

/-- C10: `embed_chunks` leaves every chunk's other fields untouched and sets,
at every index, the `embedding` key to the batch vector at that index — or to
`[]` when the batch result is shorter than the input; the list keeps its
length (the in-place mutation of the caller's list is modelled by explicit
state passing: the returned list is the caller's list after the call). -/
theorem C10_embed_chunks_frame (s : SemanticSearcher) (chunks : List Chunk) :
    (embed_chunks s chunks).length = chunks.length ∧
    ∀ i, i < chunks.length →
      ((embed_chunks s chunks).getD i {}).id = (chunks.getD i {}).id ∧
      ((embed_chunks s chunks).getD i {}).title = (chunks.getD i {}).title ∧
      ((embed_chunks s chunks).getD i {}).content = (chunks.getD i {}).content ∧
      ((embed_chunks s chunks).getD i {}).token_count = (chunks.getD i {}).token_count ∧
      ((embed_chunks s chunks).getD i {}).type = (chunks.getD i {}).type ∧
      ((embed_chunks s chunks).getD i {}).embedding =
        (if i < (s.get_embeddings_batch (embed_texts chunks)).length
         then (s.get_embeddings_batch (embed_texts chunks)).getD i []
         else []) := by
  refine ⟨addEmbeddings_length _ chunks 0, ?_⟩
  intro i hi
  have he : embed_chunks s chunks =
      addEmbeddings (s.get_embeddings_batch (embed_texts chunks)) 0 chunks := rfl
  have h := addEmbeddings_getD (s.get_embeddings_batch (embed_texts chunks)) chunks 0 i hi
  rw [Nat.zero_add] at h
  rw [he, h]
  by_cases hlen : i < (s.get_embeddings_batch (embed_texts chunks)).length <;>
    simp [hlen]

/-- C10 (witness): the frame theorem applied at index 1 of a two-chunk list
whose batch returned a single vector: the second chunk keeps its content and
receives the empty embedding. -/
theorem C10_embed_chunks_frame_witness :
    ((embed_chunks sPartial [chA, chB]).getD 1 {}).content =
      (([chA, chB] : List Chunk).getD 1 {}).content ∧
    ((embed_chunks sPartial [chA, chB]).getD 1 {}).embedding =
      (if 1 < (sPartial.get_embeddings_batch (embed_texts [chA, chB])).length
       then (sPartial.get_embeddings_batch (embed_texts [chA, chB])).getD 1 []
       else []) :=
  ⟨((C10_embed_chunks_frame sPartial [chA, chB]).2 1 (by decide)).2.2.1,
   ((C10_embed_chunks_frame sPartial [chA, chB]).2 1 (by decide)).2.2.2.2.2⟩

/-- C1 (amended): when the batched embedding call returns fewer vectors than
chunks (all returned vectors nonempty, the query embedding present, and the
cosine evaluations succeeding), the call does *not* degrade to the keyword
fallback: `find_relevant_chunks` succeeds, every returned item is
embedding-scored (no `search_type` tag), and every returned chunk is one of
the first `len(batch)` input chunks — the unmatched chunks got the empty
embedding and were silently excluded from scoring. -/
theorem C1_partial_batch_amended (s : SemanticSearcher) (query : PyStr)
    (chunks : List Chunk) (k : Nat)
    (hq : s.get_embedding query ≠ [])
    (hnz : ∀ v ∈ s.get_embeddings_batch (embed_texts chunks), v ≠ [])
    (hsim : ∀ v ∈ s.get_embeddings_batch (embed_texts chunks),
      ∃ sc, s.cosine_similarity (s.get_embedding query) v = Except.ok sc)
    (hlen : (s.get_embeddings_batch (embed_texts chunks)).length < chunks.length) :
    find_relevant_chunks s query (embed_chunks s chunks) k =
      Except.ok (search_with_fallback s query (embed_chunks s chunks) k) ∧
    ∀ rc ∈ search_with_fallback s query (embed_chunks s chunks) k,
      rc.search_type = none ∧
      rc.chunk ∈ (chunks.take
        (s.get_embeddings_batch (embed_texts chunks)).length).map eraseEmb := by
  have hok : ∀ ch ∈ embed_chunks s chunks, ch.embedding ≠ [] →
      ∃ sc, s.cosine_similarity (s.get_embedding query) ch.embedding = Except.ok sc := by
    intro ch hch hne
    rcases addEmbeddings_embedding_mem (s.get_embeddings_batch (embed_texts chunks))
      chunks 0 ch hch with h1 | h2
    · exact absurd h1 hne
    · exact hsim _ h2
  obtain ⟨sims, hcs, hfst⟩ :=
    computeSims_ok_of s (s.get_embedding query) (embed_chunks s chunks) hok
  have hfind : find_relevant_chunks s query (embed_chunks s chunks) k =
      Except.ok (((sortByScore (fun p : Chunk × ℚ => p.2) sims).take k).map fun p =>
        { chunk := eraseEmb p.1, similarity_score := p.2, search_type := none }) := by
    rw [find_relevant_chunks, if_neg hq, hcs]
  have hsearch : search_with_fallback s query (embed_chunks s chunks) k =
      ((sortByScore (fun p : Chunk × ℚ => p.2) sims).take k).map fun p =>
        { chunk := eraseEmb p.1, similarity_score := p.2, search_type := none } := by
    rw [search_with_fallback, hfind]
  refine ⟨by rw [hfind, hsearch], ?_⟩
  rw [hsearch]
  intro rc hrc
  obtain ⟨p, hp, hrc2⟩ := List.mem_map.mp hrc
  subst hrc2
  refine ⟨rfl, ?_⟩
  have hp2 : p ∈ sims := by
    have hmem := List.mem_of_mem_take hp
    rwa [sortByScore, List.mem_insertionSort] at hmem
  have hp3 : p.1 ∈ (embed_chunks s chunks).take
      (s.get_embeddings_batch (embed_texts chunks)).length := by
    have h1 : p.1 ∈ sims.map Prod.fst := List.mem_map_of_mem Prod.fst hp2
    rw [hfst] at h1
    have h2 : (embed_chunks s chunks).filter (fun ch => !decide (ch.embedding = [])) =
        (embed_chunks s chunks).take
          ((s.get_embeddings_batch (embed_texts chunks)).length - 0) :=
      addEmbeddings_filter_take (s.get_embeddings_batch (embed_texts chunks)) hnz chunks 0
    rw [Nat.sub_zero] at h2
    rwa [h2] at h1
  have hmape : (embed_chunks s chunks).map eraseEmb = chunks.map eraseEmb :=
    map_eraseEmb_addEmbeddings (s.get_embeddings_batch (embed_texts chunks)) chunks 0
  have hcomm : ((embed_chunks s chunks).take
        (s.get_embeddings_batch (embed_texts chunks)).length).map eraseEmb =
      (chunks.take (s.get_embeddings_batch (embed_texts chunks)).length).map eraseEmb := by
    rw [List.map_take, List.map_take, hmape]
  have h4 := List.mem_map_of_mem eraseEmb hp3
  rw [hcomm] at h4
  exact h4

/-- C1 (witness): the amended theorem at a two-chunk list whose batch call
returned a single vector. -/
theorem C1_partial_batch_amended_witness :
    find_relevant_chunks sPartial "hello".toList (embed_chunks sPartial [chA, chB]) 3 =
      Except.ok (search_with_fallback sPartial "hello".toList
        (embed_chunks sPartial [chA, chB]) 3) ∧
    ∀ rc ∈ search_with_fallback sPartial "hello".toList
        (embed_chunks sPartial [chA, chB]) 3,
      rc.search_type = none ∧
      rc.chunk ∈ (([chA, chB] : List Chunk).take
        (sPartial.get_embeddings_batch (embed_texts [chA, chB])).length).map eraseEmb :=
  C1_partial_batch_amended sPartial "hello".toList [chA, chB] 3 (by decide) (by decide)
    (fun v _ => ⟨7, rfl⟩) (by decide)

/-- C1 (counterexample): with a batch of one vector for two chunks, the whole
call is *not* scored by the keyword fallback: the result is the single
embedding-scored chunk (no `search_type` tag) and differs from the keyword
fallback's output on the same input. -/
theorem C1_partial_batch_counterexample :
    (sPartial.get_embeddings_batch (embed_texts [chA, chB])).length <
      ([chA, chB] : List Chunk).length ∧
    search_with_fallback sPartial "hello".toList (embed_chunks sPartial [chA, chB]) 3 =
      [{ chunk := chA, similarity_score := 7, search_type := none }] ∧
    search_with_fallback sPartial "hello".toList (embed_chunks sPartial [chA, chB]) 3 ≠
      keyword_fallback "hello".toList (embed_chunks sPartial [chA, chB]) 3 := by
  refine ⟨by decide, by decide, by with_unfolding_all decide⟩
